import Mathlib

/-!
Verification development for the fully-connected neural-network classifiers in
`deeplearning/classifiers/fc_net.py` (classes `TwoLayerNet` and
`FullyConnectedNet`).

Numeric arrays are embedded as lists of rationals (`Mat`, `Vec`): the source
computes over floating-point numpy arrays; the embedding uses exact rational
arithmetic for the same formulas.  Python dictionaries are embedded as
association lists with insert-or-overwrite semantics (`dinsert`, `dlookup`),
preserving insertion order as Python dicts do.  The parameter keys `"W{i}"` and
`"b{i}"` are embedded as the inductive key type `PKey` (one constructor per
letter, carrying the layer index), reflecting that distinct `(letter, index)`
pairs give distinct dictionary keys.

The layer primitives (`affine_forward`, `relu_forward`, `softmax_loss`, ...)
live in `deeplearning/layers.py` / `deeplearning/layer_utils.py`, which are not
part of the provided sources; they are modelled from the specification (section
6, "External interfaces").  The softmax primitive, whose formula involves
transcendental functions, is kept as an explicit function parameter of type
`SoftmaxLoss` wherever the network code calls it: every theorem below holds for
an arbitrary softmax collaborator.
-/

/-- A numeric vector: one row of a numpy array, embedded over `ℚ`. -/
abbrev Vec : Type := List ℚ

/-- A numeric matrix: a 2-D numpy array as a list of rows. -/
abbrev Mat : Type := List (List ℚ)

/-- Dot product of two vectors (truncating zip, used only at matching lengths). -/
def dot (v w : Vec) : ℚ := (List.zipWith (· * ·) v w).sum

/-- Column `j` of a matrix (entries default to `0` past a row's end). -/
def getCol (m : Mat) (j : ℕ) : Vec := m.map (fun r => r.getD j 0)

/-- Number of columns of a matrix, read off its first row. -/
def numColsD (m : Mat) : ℕ := (m.headD []).length

/-- Matrix transpose, with the column count read from the first row. -/
def matTranspose (m : Mat) : Mat := (List.range (numColsD m)).map (fun j => getCol m j)

/-- Matrix product `a ⬝ b`. -/
def matMul (a bm : Mat) : Mat :=
  a.map (fun r => (List.range (numColsD bm)).map (fun j => dot r (getCol bm j)))

/-- Broadcast addition of a bias row vector to every row of a matrix. -/
def addBias (m : Mat) (bv : Vec) : Mat := m.map (fun r => List.zipWith (· + ·) r bv)

/-- Elementwise sum of two matrices of the same shape. -/
def matAdd (a bm : Mat) : Mat := List.zipWith (fun r s => List.zipWith (· + ·) r s) a bm

/-- Scalar multiple of a matrix. -/
def smulM (c : ℚ) (m : Mat) : Mat := m.map (fun r => r.map (fun q => c * q))

/-- Elementwise ReLU `max(0, x)` of a matrix. -/
def reluM (m : Mat) : Mat := m.map (fun r => r.map (fun q => max q 0))

/-- Column sums of a matrix (the bias gradient `db = Σ_rows dy`). -/
def colSums (m : Mat) : Vec := (matTranspose m).map List.sum

/-- Squared Frobenius norm: the sum of the squares of all entries
(`np.linalg.norm(w, 'fro') ** 2` in exact arithmetic). -/
def frobSq (m : Mat) : ℚ := (m.map (fun r => (r.map (fun q => q * q)).sum)).sum

/-- Association-list lookup: value of the first binding of the key, if any. -/
def dlookup {κ α : Type} [DecidableEq κ] : List (κ × α) → κ → Option α
  | [], _ => none
  | p :: rest, k => if k = p.1 then some p.2 else dlookup rest k

/-- Python-dict assignment `d[k] = v`: overwrite the binding in place when the
key is present, append a new binding otherwise. -/
def dinsert {κ α : Type} [DecidableEq κ] (d : List (κ × α)) (k : κ) (v : α) : List (κ × α) :=
  if (dlookup d k).isSome then d.map (fun p => if p.1 = k then (k, v) else p)
  else d ++ [(k, v)]

/-- Parameter-dictionary keys: `PKey.W i` embeds the Python key `f"W{i}"` and
`PKey.b i` embeds `f"b{i}"`. -/
inductive PKey : Type where
  | W (i : ℕ)
  | b (i : ℕ)
deriving DecidableEq, Repr

/-- A parameter-dictionary value: numpy arrays of rank 2 (weights) or rank 1
(biases) stored in the same dictionary. -/
inductive NDArray : Type where
  | mat (m : Mat)
  | vec (v : Vec)
deriving DecidableEq, Repr

/-- The parameter dictionary `self.params` (also the type of `grads`). -/
abbrev Params : Type := List (PKey × NDArray)

/-- Read the weight matrix `params[f"W{i}"]` (junk `[]` when absent: theorems
assume well-formed parameter dictionaries). -/
def getW (ps : Params) (i : ℕ) : Mat :=
  match dlookup ps (PKey.W i) with
  | some (NDArray.mat m) => m
  | _ => []

/-- Read the bias vector `params[f"b{i}"]`. -/
def getB (ps : Params) (i : ℕ) : Vec :=
  match dlookup ps (PKey.b i) with
  | some (NDArray.vec v) => v
  | _ => []

/-- Cache of `affine_forward`: the tuple `(x, w, b)`. -/
structure AffCache : Type where
  x : Mat
  w : Mat
  b : Vec

/-- Cache of `affine_relu_forward`: the affine cache together with the ReLU
cache (the pre-activation matrix). -/
structure ACCache : Type where
  aff : AffCache
  pre : Mat

/-- Modelled from the spec: the affine layer primitive
`affine_forward(x, w, b) -> (y, cache)` from `deeplearning/layers.py` (not in
the provided sources); spec section 6: `y = x W + b` with bias broadcast, cache
`(x, w, b)`. -/
def affine_forward (x w : Mat) (bv : Vec) : Mat × AffCache :=
  (addBias (matMul x w) bv, ⟨x, w, bv⟩)

/-- Modelled from the spec: the ReLU primitive
`relu_forward(x) -> (y, cache)`; spec: elementwise `max(0, x)`, cache = the
pre-activation values. -/
def relu_forward (x : Mat) : Mat × Mat := (reluM x, x)

/-- Modelled from the spec: `affine_relu_forward` from
`deeplearning/layer_utils.py`: affine then ReLU, caching both pieces. -/
def affine_relu_forward (x w : Mat) (bv : Vec) : Mat × ACCache :=
  let af := affine_forward x w bv
  let rl := relu_forward af.1
  (rl.1, ⟨af.2, rl.2⟩)

/-- Modelled from the spec: `affine_backward(dy, cache) -> (dx, dw, db)`, the
reverse-mode derivatives of `y = x W + b`:
`dx = dy Wᵀ`, `dw = xᵀ dy`, `db = Σ_rows dy`. -/
def affine_backward (dy : Mat) (c : AffCache) : Mat × Mat × Vec :=
  (matMul dy (matTranspose c.w), matMul (matTranspose c.x) dy, colSums dy)

/-- Modelled from the spec: `relu_backward(dy, cache)`: zero gradient where the
forward pre-activation was `≤ 0`, pass-through elsewhere. -/
def relu_backward (dy pre : Mat) : Mat :=
  List.zipWith (fun dr ar => List.zipWith (fun dq aq => if 0 < aq then dq else 0) dr ar) dy pre

/-- Modelled from the spec: `affine_relu_backward(dy, cache)`: ReLU backward
composed with affine backward. -/
def affine_relu_backward (dy : Mat) (c : ACCache) : Mat × Mat × Vec :=
  affine_backward (relu_backward dy c.pre) c.aff

/-- Type of the softmax loss collaborator
`softmax_loss(scores, y) -> (loss, dscores)` (spec section 6); kept abstract
because its formula is transcendental. -/
abbrev SoftmaxLoss : Type := Mat → List ℕ → ℚ × Mat

/-- Result of a `loss` call: either the scores array (inference mode) or the
`(loss, grads)` pair (training mode). -/
inductive FCOut : Type where
  | scores (s : Mat)
  | trained (l : ℚ) (g : Params)
deriving DecidableEq, Repr

/-- The gradients dictionary of a training-mode result (`[]` otherwise). -/
def FCOut.gradsD : FCOut → Params
  | .trained _ g => g
  | .scores _ => []

/-- The scalar loss of a training-mode result (`0` otherwise). -/
def FCOut.lossD : FCOut → ℚ
  | .trained l _ => l
  | .scores _ => 0

/-- A value stored in `self.dropout_param`: the mode string, or a number
(`'p'`, `'seed'`). -/
inductive DVal : Type where
  | str (s : String)
  | num (q : ℚ)
deriving DecidableEq, Repr

/-- State of a `TwoLayerNet` object: `self.params` and `self.reg`. -/
structure TwoLayerNet : Type where
  params : Params
  reg : ℚ
deriving DecidableEq

/-- State of a `FullyConnectedNet` object, one field per attribute set in
`__init__` (`dtype` is not modelled: the embedding computes exactly). The
`dropout_param` field is an `Option` because the `loss` code guards it with
`is not None`, although `__init__` always stores a dictionary. -/
structure FullyConnectedNet : Type where
  use_batchnorm : Bool
  use_dropout : Bool
  reg : ℚ
  num_layers : ℕ
  params : Params
  dropout_param : Option (List (String × DVal))
  bn_params : List (List (String × String))
deriving DecidableEq

/-- Shape passed to `np.random.normal` for `W{i}` in
`FullyConnectedNet.__init__`, mirroring the `if index == 1 / elif index ==
num_layers / else` branches with Python list indexing embedded as `List.get?`
(`none` = `IndexError`). -/
def wShape (hd : List ℕ) (input_dim num_classes L i : ℕ) : Option (ℕ × ℕ) :=
  if i = 1 then (hd.get? 0).map (fun h => (input_dim, h))
  else if i = L then (hd.get? (i - 2)).map (fun h => (h, num_classes))
  else (hd.get? (i - 2)).bind (fun a => (hd.get? (i - 1)).map (fun c => (a, c)))

/-- Shape passed to `np.zeros` for `b{i}` in `FullyConnectedNet.__init__`. -/
def bShape (hd : List ℕ) (num_classes L i : ℕ) : Option ℕ :=
  if i = L then some num_classes else hd.get? (i - 1)

/-- The parameter-initialization loop of `FullyConnectedNet.__init__`: for each
layer index insert `W{index}` (a sampled matrix of the computed shape) and
`b{index}` (zeros).  `randn m n` stands for `np.random.normal(0, weight_scale,
(m, n))`. -/
def initParams (randn : ℕ → ℕ → Mat) (hd : List ℕ) (input_dim num_classes L : ℕ) :
    List ℕ → Params → Option Params
  | [], ps => some ps
  | i :: rest, ps => do
      let ws ← wShape hd input_dim num_classes L i
      let bs ← bShape hd num_classes L i
      initParams randn hd input_dim num_classes L rest
        (dinsert (dinsert ps (PKey.W i) (NDArray.mat (randn ws.1 ws.2)))
          (PKey.b i) (NDArray.vec (List.replicate bs 0)))

/-- Embedding of `FullyConnectedNet.__init__` (construction succeeds iff no
list-indexing error occurs; hidden-layer widths are natural numbers). -/
def fcInit (randn : ℕ → ℕ → Mat) (hidden_dims : List ℕ) (input_dim num_classes : ℕ)
    (dropout : ℚ) (use_batchnorm : Bool) (reg : ℚ) (seed : Option ℚ) :
    Option FullyConnectedNet :=
  let L := 1 + hidden_dims.length
  let ud := decide (0 < dropout)
  (initParams randn hidden_dims input_dim num_classes L (List.range' 1 L) []).map (fun ps =>
    { use_batchnorm := use_batchnorm
      use_dropout := ud
      reg := reg
      num_layers := L
      params := ps
      dropout_param := some (if ud then
          [("mode", DVal.str "train"), ("p", DVal.num dropout)] ++
            (match seed with
             | some s => [("seed", DVal.num s)]
             | none => [])
        else [])
      bn_params := if use_batchnorm then List.replicate (L - 1) [("mode", "train")] else [] })

/-- The forward loop of `FullyConnectedNet.loss` over the hidden layers: for
each index, `affine_relu_forward`, collecting each layer's cache tagged with
its index (the source keeps the caches positionally in `cache_list`). -/
def fwdHidden (ps : Params) : List ℕ → Mat → Mat × List (ℕ × ACCache)
  | [], x => (x, [])
  | i :: rest, x =>
      let oc := affine_relu_forward x (getW ps i) (getB ps i)
      let r := fwdHidden ps rest oc.1
      (r.1, (i, oc.2) :: r.2)

/-- The full forward pass of `FullyConnectedNet.loss`: hidden layers `1..L-1`
then the output affine layer `L`; returns `(scores, hidden caches, last-layer
cache)`. -/
def fcScores (ps : Params) (L : ℕ) (X : Mat) : Mat × List (ℕ × ACCache) × AffCache :=
  let fh := fwdHidden ps (List.range' 1 (L - 1)) X
  let so := affine_forward fh.1 (getW ps L) (getB ps L)
  (so.1, fh.2, so.2)

/-- The backward loop of `FullyConnectedNet.loss` over the hidden layers, in
reverse layer order: `affine_relu_backward`, then
`grads[W i] = dw + reg * W_i` and `grads[b i] = db`. -/
def bwdHidden (ps : Params) (reg : ℚ) : List (ℕ × ACCache) → Mat → Params → Params
  | [], _, g => g
  | ic :: rest, dout, g =>
      let bk := affine_relu_backward dout ic.2
      bwdHidden ps reg rest bk.1
        (dinsert (dinsert g (PKey.W ic.1) (NDArray.mat (matAdd bk.2.1 (smulM reg (getW ps ic.1)))))
          (PKey.b ic.1) (NDArray.vec bk.2.2))

/-- Reference recursion paralleling `bwdHidden`: the list of raw backward-pass
gradients `(i, (dW_i, db_i))` produced while threading `dout` down the hidden
layers, before regularization is added. -/
def bwdTriples : List (ℕ × ACCache) → Mat → List (ℕ × (Mat × Vec))
  | [], _ => []
  | ic :: rest, dout =>
      let bk := affine_relu_backward dout ic.2
      (ic.1, (bk.2.1, bk.2.2)) :: bwdTriples rest bk.1

/-- The upstream gradient left after consuming a list of hidden-layer caches. -/
def bwdDx : List (ℕ × ACCache) → Mat → Mat
  | [], dout => dout
  | ic :: rest, dout => bwdDx rest (affine_relu_backward dout ic.2).1

/-- The value computed by `FullyConnectedNet.loss` (lines 203-243): scores in
inference mode; softmax-plus-regularization loss and the gradient dictionary in
training mode.  Reads only `params`, `num_layers` and `reg` of the object
state. -/
def fcResult (sm : SoftmaxLoss) (ps : Params) (L : ℕ) (reg : ℚ) (X : Mat) :
    Option (List ℕ) → FCOut
  | none => FCOut.scores (fcScores ps L X).1
  | some y =>
      let fs := fcScores ps L X
      let sc := sm fs.1 y
      let regsum := ((List.range' 1 L).map (fun i => frobSq (getW ps i))).sum
      let lossv := sc.1 + 1 / 2 * reg * regsum
      let bk := affine_backward sc.2 fs.2.2
      let g0 := dinsert (dinsert [] (PKey.W L) (NDArray.mat (matAdd bk.2.1 (smulM reg (getW ps L)))))
        (PKey.b L) (NDArray.vec bk.2.2)
      FCOut.trained lossv (bwdHidden ps reg fs.2.1.reverse bk.1 g0)

/-- The full list of raw backward gradients `(i, (dW_i, db_i))` of a training
pass, layer `L` (affine backward) first, then the hidden layers in reverse
order. -/
def fcTriples (sm : SoftmaxLoss) (ps : Params) (L : ℕ) (X : Mat) (y : List ℕ) :
    List (ℕ × (Mat × Vec)) :=
  let fs := fcScores ps L X
  let bk := affine_backward (sm fs.1 y).2 fs.2.2
  (L, (bk.2.1, bk.2.2)) :: bwdTriples fs.2.1.reverse bk.1

/-- Embedding of the method `FullyConnectedNet.loss`: the mode string, the
mutation of `self.dropout_param` and `self.bn_params` (note the source's
`bn_param[mode] = mode`, which uses the mode string itself as the key), and the
returned value; the updated object state is returned explicitly. -/
def FullyConnectedNet.loss (sm : SoftmaxLoss) (st : FullyConnectedNet) (X : Mat)
    (y : Option (List ℕ)) : FCOut × FullyConnectedNet :=
  let mode := if y.isSome then "train" else "test"
  let dp := match st.dropout_param with
    | none => none
    | some dct => some (dinsert dct "mode" (DVal.str mode))
  let bns := if st.use_batchnorm then st.bn_params.map (fun bp => dinsert bp mode mode)
    else st.bn_params
  (fcResult sm st.params st.num_layers st.reg X y,
   { st with dropout_param := dp, bn_params := bns })

/-- Embedding of the method `TwoLayerNet.loss`: affine-relu, affine, then
(in training mode) softmax loss plus `reg * 0.5 * (||W1||² + ||W2||²)` and the
two backward steps; the (unchanged) object state is returned explicitly. -/
def TwoLayerNet.loss (sm : SoftmaxLoss) (st : TwoLayerNet) (X : Mat)
    (y : Option (List ℕ)) : FCOut × TwoLayerNet :=
  let h := affine_relu_forward X (getW st.params 1) (getB st.params 1)
  let so := affine_forward h.1 (getW st.params 2) (getB st.params 2)
  match y with
  | none => (FCOut.scores so.1, st)
  | some ys =>
      let w1f := frobSq (getW st.params 1)
      let w2f := frobSq (getW st.params 2)
      let sc := sm so.1 ys
      let lossv := sc.1 + st.reg * (1 / 2) * (w1f + w2f)
      let bk2 := affine_backward sc.2 so.2
      let g2 := dinsert (dinsert [] (PKey.W 2) (NDArray.mat (matAdd bk2.2.1 (smulM st.reg (getW st.params 2)))))
        (PKey.b 2) (NDArray.vec bk2.2.2)
      let bk1 := affine_relu_backward bk2.1 h.2
      let g := dinsert (dinsert g2 (PKey.W 1) (NDArray.mat (matAdd bk1.2.1 (smulM st.reg (getW st.params 1)))))
        (PKey.b 1) (NDArray.vec bk1.2.2)
      (FCOut.trained lossv g, st)

/-- A concrete all-zeros weight sampler, standing in for `np.random.normal` in
closed evaluations (the claims below never depend on sampled values). -/
def zerosM (m n : ℕ) : Mat := List.replicate m (List.replicate n 0)

/-- A concrete softmax collaborator for closed evaluations: loss `0`, gradient
equal to the scores (same shape as the scores, as the spec requires). -/
def smId : SoftmaxLoss := fun s _ => (0, s)

/-- The key sequence `[W i₁, b i₁, W i₂, b i₂, ...]` laid down by the gradient
loop for a given sequence of layer indices. -/
def gradKeys : List ℕ → List PKey
  | [] => []
  | i :: rest => PKey.W i :: PKey.b i :: gradKeys rest

/-- A concrete batchnorm-enabled network state used to evaluate the
`bn_param[mode] = mode` update (its parameter values are irrelevant to the
mode-dictionary mutation). -/
def bnNetC : FullyConnectedNet :=
  { use_batchnorm := true
    use_dropout := false
    reg := 0
    num_layers := 2
    params := []
    dropout_param := some []
    bn_params := [[("mode", "train")]] }

/-- Concrete network state with batchnorm and dropout configuration present,
used to instantiate the determinism theorem. -/
def stA : FullyConnectedNet :=
  { use_batchnorm := true
    use_dropout := true
    reg := 1
    num_layers := 1
    params := [(PKey.W 1, NDArray.mat [[2]]), (PKey.b 1, NDArray.vec [3])]
    dropout_param := some [("mode", DVal.str "train"), ("p", DVal.num (1/2))]
    bn_params := [[("mode", "train")]] }

/-- The same parameters and configuration as `stA` but with batchnorm and
dropout state absent. -/
def stB : FullyConnectedNet :=
  { use_batchnorm := false
    use_dropout := false
    reg := 1
    num_layers := 1
    params := [(PKey.W 1, NDArray.mat [[2]]), (PKey.b 1, NDArray.vec [3])]
    dropout_param := none
    bn_params := [] }

/-- The network state produced by `fcInit zerosM [1] 1 1 0 false 0 none`
(dropout disabled): used to witness the dropout-mode write. -/
def netW : FullyConnectedNet :=
  { use_batchnorm := false
    use_dropout := false
    reg := 0
    num_layers := 2
    params := [(PKey.W 1, NDArray.mat [[0]]), (PKey.b 1, NDArray.vec [0]),
      (PKey.W 2, NDArray.mat [[0]]), (PKey.b 2, NDArray.vec [0])]
    dropout_param := some []
    bn_params := [] }

/-- A concrete well-shaped one-hidden-layer parameter dictionary (all
dimensions `1`) for witnessing the shape theorems. -/
def pw : Params :=
  [(PKey.W 1, NDArray.mat [[1]]), (PKey.b 1, NDArray.vec [0]),
   (PKey.W 2, NDArray.mat [[1]]), (PKey.b 2, NDArray.vec [0])]

/-- A concrete two-layer-net state for witnessing the `TwoLayerNet` clauses. -/
def twoNetC : TwoLayerNet := { params := pw, reg := 1 }

/-- The scores computed by `TwoLayerNet.loss`: affine-relu then affine. -/
def twoScores (st : TwoLayerNet) (X : Mat) : Mat :=
  (affine_forward (affine_relu_forward X (getW st.params 1) (getB st.params 1)).1
    (getW st.params 2) (getB st.params 2)).1

/-- The output-layer backward step of `TwoLayerNet.loss`:
`affine_backward(dout, cache_output)` producing `(dhidden, dW2, db2)`. -/
def twoBk2 (sm : SoftmaxLoss) (st : TwoLayerNet) (X : Mat) (y : List ℕ) :
    Mat × Mat × Vec :=
  affine_backward (sm (twoScores st X) y).2
    (affine_forward (affine_relu_forward X (getW st.params 1) (getB st.params 1)).1
      (getW st.params 2) (getB st.params 2)).2

/-- The hidden-layer backward step of `TwoLayerNet.loss`:
`affine_relu_backward(dhidden, cache_hidden)` producing `(dx, dW1, db1)`. -/
def twoBk1 (sm : SoftmaxLoss) (st : TwoLayerNet) (X : Mat) (y : List ℕ) :
    Mat × Mat × Vec :=
  affine_relu_backward (twoBk2 sm st X y).1
    (affine_relu_forward X (getW st.params 1) (getB st.params 1)).2

/-- The output-layer backward step of `FullyConnectedNet.loss`:
`affine_backward(dscores, cache_list[L-1])` producing `(dout, dW_L, db_L)`. -/
def fcBkL (sm : SoftmaxLoss) (ps : Params) (L : ℕ) (X : Mat) (y : List ℕ) :
    Mat × Mat × Vec :=
  affine_backward (sm (fcScores ps L X).1 y).2 (fcScores ps L X).2.2

/-- The gradients dictionary after the first (layer `L`) iteration of the
backward loop of `FullyConnectedNet.loss`. -/
def fcG0 (sm : SoftmaxLoss) (ps : Params) (L : ℕ) (reg : ℚ) (X : Mat) (y : List ℕ) :
    Params :=
  dinsert (dinsert [] (PKey.W L)
      (NDArray.mat (matAdd (fcBkL sm ps L X y).2.1 (smulM reg (getW ps L)))))
    (PKey.b L) (NDArray.vec (fcBkL sm ps L X y).2.2)

/-- Shape predicate for an embedded 2-D array: `r` rows, each of length `c`. -/
abbrev HasShape (m : Mat) (r c : ℕ) : Prop := m.length = r ∧ ∀ row ∈ m, row.length = c

theorem mem_zipWith_elim {α β γ : Type} {f : α → β → γ} {x : γ} :
    ∀ {l1 : List α} {l2 : List β}, x ∈ List.zipWith f l1 l2 →
      ∃ a ∈ l1, ∃ b ∈ l2, x = f a b := by
  intro l1
  induction l1 with
  | nil => intro l2 h; simp at h
  | cons a t ih =>
      intro l2 h
      cases l2 with
      | nil => simp at h
      | cons b t2 =>
          simp only [List.zipWith_cons_cons, List.mem_cons] at h
          rcases h with h | h
          · exact ⟨a, by simp, b, by simp, h⟩
          · obtain ⟨a', ha, b', hb, hx⟩ := ih h
            exact ⟨a', by simp [ha], b', by simp [hb], hx⟩

theorem numColsD_eq {m : Mat} {r c : ℕ} (h : HasShape m r c) (hr : 1 ≤ r) :
    numColsD m = c := by
  obtain ⟨hl, hrow⟩ := h
  cases m with
  | nil => simp at hl; omega
  | cons a t => exact hrow a (by simp)

theorem hasShape_matMul {a bm : Mat} {n k m : ℕ} (ha : HasShape a n k)
    (hb : HasShape bm k m) (hk : 1 ≤ k) : HasShape (matMul a bm) n m := by
  refine ⟨by simpa [matMul] using ha.1, ?_⟩
  intro row hrow
  simp only [matMul, List.mem_map] at hrow
  obtain ⟨r, _, rfl⟩ := hrow
  simp [numColsD_eq hb hk]

theorem hasShape_matTranspose {m : Mat} {r c : ℕ} (h : HasShape m r c) (hr : 1 ≤ r) :
    HasShape (matTranspose m) c r := by
  refine ⟨by simp [matTranspose, numColsD_eq h hr], ?_⟩
  intro row hrow
  simp only [matTranspose, List.mem_map] at hrow
  obtain ⟨j, _, rfl⟩ := hrow
  simp [getCol, h.1]

theorem hasShape_addBias {m : Mat} {bv : Vec} {n c : ℕ} (h : HasShape m n c)
    (hb : bv.length = c) : HasShape (addBias m bv) n c := by
  refine ⟨by simpa [addBias] using h.1, ?_⟩
  intro row hrow
  simp only [addBias, List.mem_map] at hrow
  obtain ⟨r, hr, rfl⟩ := hrow
  simp [h.2 r hr, hb]

theorem hasShape_reluM {m : Mat} {n c : ℕ} (h : HasShape m n c) :
    HasShape (reluM m) n c := by
  refine ⟨by simpa [reluM] using h.1, ?_⟩
  intro row hrow
  simp only [reluM, List.mem_map] at hrow
  obtain ⟨r, hr, rfl⟩ := hrow
  simp [h.2 r hr]

theorem hasShape_zipWith2 {f : ℚ → ℚ → ℚ} {a bm : Mat} {n c : ℕ}
    (ha : HasShape a n c) (hb : HasShape bm n c) :
    HasShape (List.zipWith (fun r s => List.zipWith f r s) a bm) n c := by
  refine ⟨by simp [ha.1, hb.1], ?_⟩
  intro row hrow
  obtain ⟨r, hr, s, hs, rfl⟩ := mem_zipWith_elim hrow
  simp [ha.2 r hr, hb.2 s hs]

theorem hasShape_relu_backward {dy pre : Mat} {n c : ℕ} (h1 : HasShape dy n c)
    (h2 : HasShape pre n c) : HasShape (relu_backward dy pre) n c :=
  hasShape_zipWith2 h1 h2

theorem hasShape_matAdd {a bm : Mat} {n c : ℕ} (ha : HasShape a n c)
    (hb : HasShape bm n c) : HasShape (matAdd a bm) n c :=
  hasShape_zipWith2 ha hb

theorem hasShape_smulM {q : ℚ} {m : Mat} {n c : ℕ} (h : HasShape m n c) :
    HasShape (smulM q m) n c := by
  refine ⟨by simpa [smulM] using h.1, ?_⟩
  intro row hrow
  simp only [smulM, List.mem_map] at hrow
  obtain ⟨r, hr, rfl⟩ := hrow
  simp [h.2 r hr]

theorem length_colSums {dy : Mat} {n m : ℕ} (h : HasShape dy n m) (hn : 1 ≤ n) :
    (colSums dy).length = m := by
  simp [colSums, matTranspose, numColsD_eq h hn]

theorem hasShape_affine_forward {x w : Mat} {bv : Vec} {n dd m : ℕ}
    (hx : HasShape x n dd) (hw : HasShape w dd m) (hb : bv.length = m) (hd : 1 ≤ dd) :
    HasShape (affine_forward x w bv).1 n m :=
  hasShape_addBias (hasShape_matMul hx hw hd) hb

theorem affine_backward_shapes {dy : Mat} {c : AffCache} {n dd m : ℕ}
    (hdy : HasShape dy n m) (hx : HasShape c.x n dd) (hw : HasShape c.w dd m)
    (hn : 1 ≤ n) (hd : 1 ≤ dd) (hm : 1 ≤ m) :
    HasShape (affine_backward dy c).1 n dd ∧
      HasShape (affine_backward dy c).2.1 dd m ∧
      (affine_backward dy c).2.2.length = m :=
  ⟨hasShape_matMul hdy (hasShape_matTranspose hw hd) hm,
   hasShape_matMul (hasShape_matTranspose hx hn) hdy hn,
   length_colSums hdy hn⟩

theorem affine_relu_backward_shapes {dy : Mat} {c : ACCache} {n dd m : ℕ}
    (hdy : HasShape dy n m) (hx : HasShape c.aff.x n dd) (hw : HasShape c.aff.w dd m)
    (hpre : HasShape c.pre n m) (hn : 1 ≤ n) (hd : 1 ≤ dd) (hm : 1 ≤ m) :
    HasShape (affine_relu_backward dy c).1 n dd ∧
      HasShape (affine_relu_backward dy c).2.1 dd m ∧
      (affine_relu_backward dy c).2.2.length = m :=
  affine_backward_shapes (hasShape_relu_backward hdy hpre) hx hw hn hd hm

theorem dlookup_eq_none_iff {κ α : Type} [DecidableEq κ] (d : List (κ × α)) (k : κ) :
    dlookup d k = none ↔ k ∉ d.map Prod.fst := by
  induction d with
  | nil => simp [dlookup]
  | cons p rest ih =>
      by_cases h : k = p.1 <;> simp [dlookup, h, ih]

theorem dlookup_map_overwrite {κ α : Type} [DecidableEq κ] (d : List (κ × α)) (k : κ)
    (v : α) (h : (dlookup d k).isSome = true) :
    dlookup (d.map (fun p => if p.1 = k then (k, v) else p)) k = some v := by
  induction d with
  | nil => simp [dlookup] at h
  | cons p rest ih =>
      by_cases hk : k = p.1
      · simp [dlookup, hk]
      · have hne : ¬ p.1 = k := fun hh => hk hh.symm
        simp only [dlookup, if_neg hk] at h
        simpa [dlookup, hne, hk] using ih h

theorem dlookup_append_right {κ α : Type} [DecidableEq κ] (d d2 : List (κ × α)) (k : κ)
    (h : dlookup d k = none) : dlookup (d ++ d2) k = dlookup d2 k := by
  induction d with
  | nil => simp
  | cons p rest ih =>
      by_cases hk : k = p.1
      · simp [dlookup, hk] at h
      · simp only [dlookup, if_neg hk] at h
        simpa [dlookup, hk] using ih h

theorem dlookup_dinsert_self {κ α : Type} [DecidableEq κ] (d : List (κ × α)) (k : κ)
    (v : α) : dlookup (dinsert d k v) k = some v := by
  rcases hh : dlookup d k with _ | v0
  · rw [dinsert, if_neg (by simp [hh]), dlookup_append_right d _ k hh]
    simp [dlookup]
  · have hs : (dlookup d k).isSome = true := by simp [hh]
    simpa [dinsert, hs] using dlookup_map_overwrite d k v hs

theorem dlookup_map_overwrite_ne {κ α : Type} [DecidableEq κ] (d : List (κ × α))
    (k k' : κ) (v : α) (hne : k' ≠ k) :
    dlookup (d.map (fun p => if p.1 = k then (k, v) else p)) k' = dlookup d k' := by
  induction d with
  | nil => rfl
  | cons p rest ih =>
      by_cases hp : p.1 = k
      · simp [dlookup, hp, hne, ih]
      · simp [dlookup, hp, ih]

theorem dlookup_append_single_ne {κ α : Type} [DecidableEq κ] (d : List (κ × α))
    (k k' : κ) (v : α) (hne : k' ≠ k) :
    dlookup (d ++ [(k, v)]) k' = dlookup d k' := by
  induction d with
  | nil => simp [dlookup, hne]
  | cons p rest ih =>
      by_cases hp : k' = p.1 <;> simp [dlookup, hp, ih]

theorem dlookup_dinsert_ne {κ α : Type} [DecidableEq κ] (d : List (κ × α))
    (k k' : κ) (v : α) (hne : k' ≠ k) :
    dlookup (dinsert d k v) k' = dlookup d k' := by
  by_cases hs : (dlookup d k).isSome <;>
    simp [dinsert, hs, dlookup_map_overwrite_ne d k k' v hne,
      dlookup_append_single_ne d k k' v hne]

theorem keys_dinsert_of_none {κ α : Type} [DecidableEq κ] (d : List (κ × α)) (k : κ)
    (v : α) (h : dlookup d k = none) :
    (dinsert d k v).map Prod.fst = d.map Prod.fst ++ [k] := by
  simp [dinsert, h]

theorem fwdHidden_nil (ps : Params) (x : Mat) : fwdHidden ps [] x = (x, []) := rfl

theorem fwdHidden_cons (ps : Params) (i : ℕ) (rest : List ℕ) (x : Mat) :
    fwdHidden ps (i :: rest) x
      = ((fwdHidden ps rest (affine_relu_forward x (getW ps i) (getB ps i)).1).1,
         (i, (affine_relu_forward x (getW ps i) (getB ps i)).2)
           :: (fwdHidden ps rest (affine_relu_forward x (getW ps i) (getB ps i)).1).2) := rfl

theorem bwdHidden_nil (ps : Params) (reg : ℚ) (dout : Mat) (g : Params) :
    bwdHidden ps reg [] dout g = g := rfl

theorem bwdHidden_cons (ps : Params) (reg : ℚ) (ic : ℕ × ACCache)
    (rest : List (ℕ × ACCache)) (dout : Mat) (g : Params) :
    bwdHidden ps reg (ic :: rest) dout g
      = bwdHidden ps reg rest (affine_relu_backward dout ic.2).1
          (dinsert (dinsert g (PKey.W ic.1)
              (NDArray.mat (matAdd (affine_relu_backward dout ic.2).2.1
                (smulM reg (getW ps ic.1)))))
            (PKey.b ic.1) (NDArray.vec (affine_relu_backward dout ic.2).2.2)) := rfl

theorem bwdTriples_nil (dout : Mat) : bwdTriples [] dout = [] := rfl

theorem bwdTriples_cons (ic : ℕ × ACCache) (rest : List (ℕ × ACCache)) (dout : Mat) :
    bwdTriples (ic :: rest) dout
      = (ic.1, ((affine_relu_backward dout ic.2).2.1, (affine_relu_backward dout ic.2).2.2))
          :: bwdTriples rest (affine_relu_backward dout ic.2).1 := rfl

theorem bwdDx_nil (dout : Mat) : bwdDx [] dout = dout := rfl

theorem bwdDx_cons (ic : ℕ × ACCache) (rest : List (ℕ × ACCache)) (dout : Mat) :
    bwdDx (ic :: rest) dout = bwdDx rest (affine_relu_backward dout ic.2).1 := rfl

theorem bwdDx_append (l1 l2 : List (ℕ × ACCache)) (dout : Mat) :
    bwdDx (l1 ++ l2) dout = bwdDx l2 (bwdDx l1 dout) := by
  induction l1 generalizing dout with
  | nil => rfl
  | cons ic rest ih => simp [bwdDx_cons, ih]

theorem bwdTriples_append (l1 l2 : List (ℕ × ACCache)) (dout : Mat) :
    bwdTriples (l1 ++ l2) dout = bwdTriples l1 dout ++ bwdTriples l2 (bwdDx l1 dout) := by
  induction l1 generalizing dout with
  | nil => rfl
  | cons ic rest ih => simp [bwdTriples_cons, bwdDx_cons, ih]

theorem bwdTriples_map_fst (rcs : List (ℕ × ACCache)) (dout : Mat) :
    (bwdTriples rcs dout).map Prod.fst = rcs.map Prod.fst := by
  induction rcs generalizing dout with
  | nil => rfl
  | cons ic rest ih => simp [bwdTriples_cons, ih]

theorem bwdHidden_spec (ps : Params) (reg : ℚ) :
    ∀ (rcs : List (ℕ × ACCache)) (dout : Mat) (g : Params),
      (rcs.map Prod.fst).Nodup →
      (∀ i ∈ rcs.map Prod.fst, dlookup g (PKey.W i) = none ∧ dlookup g (PKey.b i) = none) →
      ((bwdHidden ps reg rcs dout g).map Prod.fst
          = g.map Prod.fst ++ gradKeys (rcs.map Prod.fst)) ∧
      (∀ k, (∀ i ∈ rcs.map Prod.fst, k ≠ PKey.W i ∧ k ≠ PKey.b i) →
          dlookup (bwdHidden ps reg rcs dout g) k = dlookup g k) ∧
      (∀ i dW db, (i, (dW, db)) ∈ bwdTriples rcs dout →
          dlookup (bwdHidden ps reg rcs dout g) (PKey.W i)
            = some (NDArray.mat (matAdd dW (smulM reg (getW ps i)))) ∧
          dlookup (bwdHidden ps reg rcs dout g) (PKey.b i) = some (NDArray.vec db)) := by
  intro rcs
  induction rcs with
  | nil =>
      intro dout g _ _
      refine ⟨by simp [bwdHidden_nil, gradKeys], fun k _ => rfl, ?_⟩
      intro i dW db h
      simp [bwdTriples_nil] at h
  | cons ic rest ih =>
      intro dout g hnd hdisj
      obtain ⟨i, c⟩ := ic
      rw [List.map_cons] at hnd
      have hi : i ∉ rest.map Prod.fst := (List.nodup_cons.mp hnd).1
      have hnd' : (rest.map Prod.fst).Nodup := (List.nodup_cons.mp hnd).2
      have hgWi : dlookup g (PKey.W i) = none := (hdisj i (by simp)).1
      have hgbi : dlookup g (PKey.b i) = none := (hdisj i (by simp)).2
      set bk := affine_relu_backward dout c with hbk
      set vW := NDArray.mat (matAdd bk.2.1 (smulM reg (getW ps i))) with hvW
      set vb := NDArray.vec bk.2.2 with hvb
      set g2 := dinsert (dinsert g (PKey.W i) vW) (PKey.b i) vb with hg2
      have hWb : (PKey.b i : PKey) ≠ PKey.W i := by simp
      have hg2Wi : dlookup g2 (PKey.W i) = some vW := by
        rw [hg2, dlookup_dinsert_ne _ _ _ _ (by simp), dlookup_dinsert_self]
      have hg2bi : dlookup g2 (PKey.b i) = some vb := by
        rw [hg2, dlookup_dinsert_self]
      have hne_of_mem : ∀ j ∈ rest.map Prod.fst, j ≠ i := by
        intro j hj hji
        exact hi (hji ▸ hj)
      have hdisj2 : ∀ j ∈ rest.map Prod.fst,
          dlookup g2 (PKey.W j) = none ∧ dlookup g2 (PKey.b j) = none := by
        intro j hj
        have hji : j ≠ i := hne_of_mem j hj
        constructor
        · rw [hg2, dlookup_dinsert_ne _ _ _ _ (by simp),
            dlookup_dinsert_ne _ _ _ _ (by simp [hji])]
          exact (hdisj j (by simp [hj])).1
        · rw [hg2, dlookup_dinsert_ne _ _ _ _ (by simp [hji]),
            dlookup_dinsert_ne _ _ _ _ (by simp)]
          exact (hdisj j (by simp [hj])).2
      have hkeys2 : g2.map Prod.fst = g.map Prod.fst ++ [PKey.W i, PKey.b i] := by
        have h1 : (dinsert g (PKey.W i) vW).map Prod.fst
            = g.map Prod.fst ++ [PKey.W i] := keys_dinsert_of_none g _ _ hgWi
        have h0 : dlookup (dinsert g (PKey.W i) vW) (PKey.b i) = none := by
          rw [dlookup_dinsert_ne _ _ _ _ (by simp)]; exact hgbi
        rw [hg2, keys_dinsert_of_none _ _ _ h0, h1, List.append_assoc]
        rfl
      obtain ⟨ka, kb, kc⟩ := ih bk.1 g2 hnd' hdisj2
      rw [bwdHidden_cons]
      refine ⟨?_, ?_, ?_⟩
      · rw [← hbk, ← hvW, ← hvb, ← hg2, ka, hkeys2]
        simp [gradKeys, List.append_assoc]
      · intro k hk
        rw [← hbk, ← hvW, ← hvb, ← hg2, kb k (fun j hj => hk j (by simp [hj]))]
        have hkW : k ≠ PKey.W i := (hk i (by simp)).1
        have hkb : k ≠ PKey.b i := (hk i (by simp)).2
        rw [hg2, dlookup_dinsert_ne _ _ _ _ hkb, dlookup_dinsert_ne _ _ _ _ hkW]
      · intro j dW db hmem
        rw [bwdTriples_cons] at hmem
        rcases List.mem_cons.mp hmem with hhead | htail
        · have hji : j = i := by
            have := congrArg Prod.fst hhead
            simpa using this
          have hdw : dW = bk.2.1 := by
            have := congrArg (fun q => q.2.1) hhead
            simpa [hbk] using this
          have hdb : db = bk.2.2 := by
            have := congrArg (fun q => q.2.2) hhead
            simpa [hbk] using this
          subst hji
          constructor
          · rw [← hbk, ← hvW, ← hvb, ← hg2,
              kb (PKey.W j) (fun j' hj' => by simp [Ne.symm (hne_of_mem j' hj')]),
              hg2Wi, hvW, hdw]
          · rw [← hbk, ← hvW, ← hvb, ← hg2,
              kb (PKey.b j) (fun j' hj' => by simp [Ne.symm (hne_of_mem j' hj')]),
              hg2bi, hvb, hdb]
        · have := kc j dW db (by simpa [hbk] using htail)
          rw [← hbk, ← hvW, ← hvb, ← hg2]
          exact this

theorem affine_relu_forward_fst (x w : Mat) (bv : Vec) :
    (affine_relu_forward x w bv).1 = reluM (addBias (matMul x w) bv) := rfl

theorem affine_relu_forward_snd (x w : Mat) (bv : Vec) :
    (affine_relu_forward x w bv).2 = ⟨⟨x, w, bv⟩, addBias (matMul x w) bv⟩ := rfl

theorem hasShape_affine_relu_forward {x w : Mat} {bv : Vec} {n dd m : ℕ}
    (hx : HasShape x n dd) (hw : HasShape w dd m) (hb : bv.length = m) (hd : 1 ≤ dd) :
    HasShape (affine_relu_forward x w bv).1 n m := by
  rw [affine_relu_forward_fst]
  exact hasShape_reluM (hasShape_addBias (hasShape_matMul hx hw hd) hb)

theorem fwdHidden_spec (ps : Params) (N : ℕ) (d : ℕ → ℕ) :
    ∀ (k a : ℕ) (x : Mat),
      (∀ i, a + 1 ≤ i → i ≤ a + k → HasShape (getW ps i) (d (i - 1)) (d i) ∧
        (getB ps i).length = d i) →
      (∀ i, a ≤ i → i ≤ a + k → 1 ≤ d i) →
      HasShape x N (d a) →
      HasShape (fwdHidden ps (List.range' (a + 1) k) x).1 N (d (a + k)) ∧
      ((fwdHidden ps (List.range' (a + 1) k) x).2.map Prod.fst = List.range' (a + 1) k) ∧
      (∀ p ∈ (fwdHidden ps (List.range' (a + 1) k) x).2,
        a + 1 ≤ p.1 ∧ p.1 ≤ a + k ∧
        HasShape p.2.aff.x N (d (p.1 - 1)) ∧ HasShape p.2.aff.w (d (p.1 - 1)) (d p.1) ∧
        p.2.aff.b.length = d p.1 ∧ HasShape p.2.pre N (d p.1)) := by
  intro k
  induction k with
  | zero =>
      intro a x _ _ hx
      refine ⟨by simpa [fwdHidden_nil] using hx, by simp [fwdHidden_nil], ?_⟩
      intro p hp
      simp [fwdHidden_nil] at hp
  | succ k ih =>
      intro a x hw hpos hx
      have hW1 : HasShape (getW ps (a + 1)) (d a) (d (a + 1)) := by
        have := (hw (a + 1) (le_refl _) (by omega)).1
        simpa using this
      have hB1 : (getB ps (a + 1)).length = d (a + 1) := (hw (a + 1) (le_refl _) (by omega)).2
      have hda : 1 ≤ d a := hpos a (le_refl _) (by omega)
      have hout : HasShape (affine_relu_forward x (getW ps (a + 1)) (getB ps (a + 1))).1
          N (d (a + 1)) := hasShape_affine_relu_forward hx hW1 hB1 hda
      have hw2 : ∀ i, a + 1 + 1 ≤ i → i ≤ a + 1 + k →
          HasShape (getW ps i) (d (i - 1)) (d i) ∧ (getB ps i).length = d i := by
        intro i h1 h2
        exact hw i (by omega) (by omega)
      have hpos2 : ∀ i, a + 1 ≤ i → i ≤ a + 1 + k → 1 ≤ d i := by
        intro i h1 h2
        exact hpos i (by omega) (by omega)
      obtain ⟨sh, keysEq, mem⟩ := ih (a + 1)
        (affine_relu_forward x (getW ps (a + 1)) (getB ps (a + 1))).1 hw2 hpos2 hout
      have harith : a + 1 + k = a + (k + 1) := by omega
      rw [List.range'_succ, fwdHidden_cons]
      refine ⟨by rw [← harith]; exact sh, ?_, ?_⟩
      · simp only [List.map_cons, keysEq]
      · intro p hp
        rcases List.mem_cons.mp hp with hhead | htail
        · subst hhead
          rw [affine_relu_forward_snd]
          refine ⟨le_refl _, by omega, ?_, ?_, ?_, ?_⟩
          · simpa using hx
          · simpa using hW1
          · simpa using hB1
          · simpa using hasShape_addBias (hasShape_matMul hx hW1 hda) hB1
        · obtain ⟨h1, h2, h3⟩ := mem p htail
          exact ⟨by omega, by omega, h3⟩

theorem bwd_shape_spec (ps : Params) (N : ℕ) (d : ℕ → ℕ) (hN : 1 ≤ N) :
    ∀ (k a : ℕ) (x dout : Mat),
      (∀ i, a + 1 ≤ i → i ≤ a + k → HasShape (getW ps i) (d (i - 1)) (d i) ∧
        (getB ps i).length = d i) →
      (∀ i, a ≤ i → i ≤ a + k → 1 ≤ d i) →
      HasShape x N (d a) →
      HasShape dout N (d (a + k)) →
      (∀ q ∈ bwdTriples (fwdHidden ps (List.range' (a + 1) k) x).2.reverse dout,
        a + 1 ≤ q.1 ∧ q.1 ≤ a + k ∧ HasShape q.2.1 (d (q.1 - 1)) (d q.1) ∧
          q.2.2.length = d q.1) ∧
      HasShape (bwdDx (fwdHidden ps (List.range' (a + 1) k) x).2.reverse dout) N (d a) := by
  intro k
  induction k with
  | zero =>
      intro a x dout _ _ _ hdout
      constructor
      · intro q hq
        simp [fwdHidden_nil, bwdTriples_nil] at hq
      · simpa [fwdHidden_nil, bwdDx_nil] using hdout
  | succ k ih =>
      intro a x dout hw hpos hx hdout
      have hW1 : HasShape (getW ps (a + 1)) (d a) (d (a + 1)) := by
        have := (hw (a + 1) (le_refl _) (by omega)).1
        simpa using this
      have hB1 : (getB ps (a + 1)).length = d (a + 1) := (hw (a + 1) (le_refl _) (by omega)).2
      have hda : 1 ≤ d a := hpos a (le_refl _) (by omega)
      have hda1 : 1 ≤ d (a + 1) := hpos (a + 1) (by omega) (by omega)
      have hout : HasShape (affine_relu_forward x (getW ps (a + 1)) (getB ps (a + 1))).1
          N (d (a + 1)) := hasShape_affine_relu_forward hx hW1 hB1 hda
      have hw2 : ∀ i, a + 1 + 1 ≤ i → i ≤ a + 1 + k →
          HasShape (getW ps i) (d (i - 1)) (d i) ∧ (getB ps i).length = d i := by
        intro i h1 h2
        exact hw i (by omega) (by omega)
      have hpos2 : ∀ i, a + 1 ≤ i → i ≤ a + 1 + k → 1 ≤ d i := by
        intro i h1 h2
        exact hpos i (by omega) (by omega)
      have hdout2 : HasShape dout N (d (a + 1 + k)) := by
        have harith : a + 1 + k = a + (k + 1) := by omega
        rw [harith]
        exact hdout
      obtain ⟨trip, hdx⟩ := ih (a + 1)
        (affine_relu_forward x (getW ps (a + 1)) (getB ps (a + 1))).1 dout hw2 hpos2 hout hdout2
      rw [List.range'_succ, fwdHidden_cons, List.reverse_cons, bwdTriples_append, bwdDx_append]
      set oc2 := (affine_relu_forward x (getW ps (a + 1)) (getB ps (a + 1))).2 with hoc2
      set cs' := (fwdHidden ps (List.range' (a + 1 + 1) k)
        (affine_relu_forward x (getW ps (a + 1)) (getB ps (a + 1))).1).2 with hcs
      set dx1 := bwdDx cs'.reverse dout with hdx1
      have hcx : HasShape oc2.aff.x N (d a) := by
        rw [hoc2, affine_relu_forward_snd]
        simpa using hx
      have hcw : HasShape oc2.aff.w (d a) (d (a + 1)) := by
        rw [hoc2, affine_relu_forward_snd]
        simpa using hW1
      have hcpre : HasShape oc2.pre N (d (a + 1)) := by
        rw [hoc2, affine_relu_forward_snd]
        simpa using hasShape_addBias (hasShape_matMul hx hW1 hda) hB1
      obtain ⟨hbdx, hbdW, hbdb⟩ :=
        affine_relu_backward_shapes hdx hcx hcw hcpre hN hda hda1
      constructor
      · intro q hq
        rcases List.mem_append.mp hq with hq1 | hq2
        · obtain ⟨h1, h2, h3⟩ := trip q hq1
          exact ⟨by omega, by omega, h3⟩
        · rw [bwdTriples_cons, bwdTriples_nil] at hq2
          rcases List.mem_cons.mp hq2 with hhead | hnil
          · subst hhead
            refine ⟨le_refl _, by omega, ?_, ?_⟩
            · simpa using hbdW
            · simpa using hbdb
          · simp at hnil
      · rw [bwdDx_cons, bwdDx_nil]
        exact hbdx

/-- C1: the claim states that constructing a `FullyConnectedNet` with an empty
`hidden_dims` list succeeds and yields a valid single-layer network.  In the
code, the initialization loop's `index == 1` branch reads `hidden_dims[0]`,
which raises `IndexError` on an empty list, so construction fails for every
weight sampler: the embedded constructor returns `none`. -/
theorem fcInit_empty_hidden_dims_fails (randn : ℕ → ℕ → Mat) :
    fcInit randn [] 4 3 0 false 0 none = none := rfl

/-- C2: the claim states that the dropout and batch-normalization collaborator
primitives are invoked during the forward pass when enabled.  In the code they
never are: the value returned by `FullyConnectedNet.loss` is entirely
independent of `use_batchnorm`, `use_dropout`, `dropout_param` and
`bn_params`, which would be impossible if the enabled collaborators were
applied between affine and ReLU. -/
theorem fc_loss_result_independent_of_bn_dropout (sm : SoftmaxLoss)
    (st : FullyConnectedNet) (X : Mat) (y : Option (List ℕ)) (b1 b2 ud1 ud2 : Bool)
    (dp1 dp2 : Option (List (String × DVal))) (bns1 bns2 : List (List (String × String))) :
    (FullyConnectedNet.loss sm
        { st with
            use_batchnorm := b1
            use_dropout := ud1
            dropout_param := dp1
            bn_params := bns1 } X y).1
      = (FullyConnectedNet.loss sm
        { st with
            use_batchnorm := b2
            use_dropout := ud2
            dropout_param := dp2
            bn_params := bns2 } X y).1 := rfl

/-- C3: the claim states that a `loss` call on a batchnorm network sets the
value stored under the key `'mode'` of every `bn_param` dictionary.  The code
executes `bn_param[mode] = mode`, storing the mode string under its own name
as the key: after an inference call (`y = None`), the dictionary gains a new
binding under key `'test'` while the binding under `'mode'` still holds
`'train'`. -/
theorem fc_loss_bn_mode_key_bug :
    (FullyConnectedNet.loss smId bnNetC [] none).2.bn_params
        = [[("mode", "train"), ("test", "test")]] ∧
    dlookup ((FullyConnectedNet.loss smId bnNetC [] none).2.bn_params.headD []) "mode"
        = some "train" ∧
    dlookup ((FullyConnectedNet.loss smId bnNetC [] none).2.bn_params.headD []) "test"
        = some "test" := by
  refine ⟨by decide, by decide, by decide⟩

/-- C5: in training mode the returned scalar loss equals the softmax loss on
the scores plus `(reg/2) * Σ_i ||W_i||_F²` over the weight matrices only, for
`FullyConnectedNet` (first clause) and `TwoLayerNet` (second clause); biases
never enter the regularization sum. -/
theorem training_loss_is_softmax_plus_reg :
    (∀ (sm : SoftmaxLoss) (ps : Params) (L : ℕ) (reg : ℚ) (X : Mat) (y : List ℕ),
      (fcResult sm ps L reg X (some y)).lossD =
        (sm (fcScores ps L X).1 y).1 +
          reg / 2 * ((List.range' 1 L).map (fun i => frobSq (getW ps i))).sum) ∧
    (∀ (sm : SoftmaxLoss) (st : TwoLayerNet) (X : Mat) (y : List ℕ),
      ((TwoLayerNet.loss sm st X (some y)).1).lossD =
        (sm (affine_forward (affine_relu_forward X (getW st.params 1) (getB st.params 1)).1
              (getW st.params 2) (getB st.params 2)).1 y).1 +
          st.reg / 2 * (frobSq (getW st.params 1) + frobSq (getW st.params 2))) := by
  constructor
  · intro sm ps L reg X y
    show (sm (fcScores ps L X).1 y).1 +
        1 / 2 * reg * ((List.range' 1 L).map (fun i => frobSq (getW ps i))).sum = _
    ring
  · intro sm st X y
    show (sm (affine_forward (affine_relu_forward X (getW st.params 1) (getB st.params 1)).1
          (getW st.params 2) (getB st.params 2)).1 y).1 +
        st.reg * (1 / 2) * (frobSq (getW st.params 1) + frobSq (getW st.params 2)) = _
    ring

/-- C7: a `loss` call never rebinds or alters the parameter dictionary: the
object state returned by `FullyConnectedNet.loss` carries the same `params`
value, and `TwoLayerNet.loss` returns its object state entirely unchanged. -/
theorem loss_does_not_mutate_params :
    (∀ (sm : SoftmaxLoss) (st : FullyConnectedNet) (X : Mat) (y : Option (List ℕ)),
      (FullyConnectedNet.loss sm st X y).2.params = st.params) ∧
    (∀ (sm : SoftmaxLoss) (st : TwoLayerNet) (X : Mat) (y : Option (List ℕ)),
      (TwoLayerNet.loss sm st X y).2 = st) := by
  constructor
  · intro sm st X y
    rfl
  · intro sm st X y
    cases y <;> rfl

/-- C8 counterexample: the claim states that a negative dropout probability is
rejected at construction time; in the code no validation exists, and
construction with `dropout = -1` succeeds. -/
theorem fcInit_accepts_negative_dropout :
    (fcInit zerosM [3] 4 3 (-1) false 0 none).isSome = true := by decide

/-- C8 amended: the constructor performs no configuration validation: a
negative dropout probability is accepted and merely disables dropout (because
`use_dropout = dropout > 0` is false), and a zero layer width is accepted as
well. -/
theorem fcInit_no_config_validation :
    (fcInit zerosM [3] 4 3 (-1) false 0 none).map (fun st => st.use_dropout)
        = some false ∧
    (fcInit zerosM [0] 4 3 1 false 0 none).isSome = true := by
  refine ⟨by decide, by decide⟩

/-- C9: the value returned by `loss` (scores, or loss and gradients) is a
function of the parameter values, the layer count and the regularization
coefficient alone: two calls on states agreeing on those, with identical `X`
and `y`, return identical results; no other state (dropout or batchnorm
dictionaries, mode flags) influences the result, and the embedded computation
contains no randomness. -/
theorem fc_loss_deterministic (sm : SoftmaxLoss) (st1 st2 : FullyConnectedNet)
    (X : Mat) (y : Option (List ℕ)) (hp : st1.params = st2.params)
    (hL : st1.num_layers = st2.num_layers) (hr : st1.reg = st2.reg) :
    (FullyConnectedNet.loss sm st1 X y).1 = (FullyConnectedNet.loss sm st2 X y).1 := by
  show fcResult sm st1.params st1.num_layers st1.reg X y
      = fcResult sm st2.params st2.num_layers st2.reg X y
  rw [hp, hL, hr]

/-- C9 witness: two concrete states with the same parameters, layer count and
regularization (but different batchnorm/dropout state) produce the same
result. -/
theorem fc_loss_deterministic_witness :
    stA.params = stB.params ∧ stA.num_layers = stB.num_layers ∧ stA.reg = stB.reg ∧
    (FullyConnectedNet.loss smId stA [[1]] (some [0])).1
      = (FullyConnectedNet.loss smId stB [[1]] (some [0])).1 :=
  ⟨rfl, rfl, rfl, fc_loss_deterministic smId stA stB [[1]] (some [0]) rfl rfl rfl⟩

/-- C10: `__init__` always stores a dictionary (never `None`) in
`self.dropout_param` — an empty one when dropout is disabled — and since the
guard in `loss` only tests `is not None`, every `loss` call writes the mode
string under the key `'mode'` into `self.dropout_param`, `'train'` when labels
are supplied and `'test'` otherwise, even when dropout is disabled. -/
theorem dropout_param_mode_always_written :
    (∀ (randn : ℕ → ℕ → Mat) (hd : List ℕ) (din nc : ℕ) (dr : ℚ) (bn : Bool)
        (reg : ℚ) (seed : Option ℚ) (st : FullyConnectedNet),
      fcInit randn hd din nc dr bn reg seed = some st →
        st.dropout_param.isSome = true) ∧
    (∀ (sm : SoftmaxLoss) (st : FullyConnectedNet) (X : Mat) (y : Option (List ℕ))
        (dct : List (String × DVal)), st.dropout_param = some dct →
      (FullyConnectedNet.loss sm st X y).2.dropout_param
          = some (dinsert dct "mode" (DVal.str (if y.isSome then "train" else "test"))) ∧
      dlookup (dinsert dct "mode" (DVal.str (if y.isSome then "train" else "test"))) "mode"
          = some (DVal.str (if y.isSome then "train" else "test"))) := by
  constructor
  · intro randn hd din nc dr bn reg seed st h
    rw [fcInit.eq_def, Option.map_eq_some'] at h
    obtain ⟨ps, _, hst⟩ := h
    rw [← hst]
    rfl
  · intro sm st X y dct h
    constructor
    · show (match st.dropout_param with
        | none => none
        | some d => some (dinsert d "mode"
            (DVal.str (if y.isSome then "train" else "test")))) = _
      rw [h]
    · exact dlookup_dinsert_self dct "mode" _

/-- C10 witness: a network constructed with dropout disabled still has a
dictionary in `dropout_param`, and an inference-mode `loss` call writes
`'mode' ↦ 'test'` into it. -/
theorem dropout_param_mode_always_written_witness :
    fcInit zerosM [1] 1 1 0 false 0 none = some netW ∧
    netW.dropout_param.isSome = true ∧
    netW.dropout_param = some [] ∧
    (FullyConnectedNet.loss smId netW [] none).2.dropout_param
        = some (dinsert [] "mode" (DVal.str "test")) ∧
    dlookup (dinsert [] "mode" (DVal.str "test")) "mode" = some (DVal.str "test") :=
  ⟨by decide,
   dropout_param_mode_always_written.1 zerosM [1] 1 1 0 false 0 none netW (by decide),
   by decide,
   (dropout_param_mode_always_written.2 smId netW [] none [] (by decide)).1,
   (dropout_param_mode_always_written.2 smId netW [] none [] (by decide)).2⟩

/-- C6: with `y = None` the call returns only the scores array — the inference
branch of the result type, carrying no gradients — of shape
`(N, num_classes)`, for `FullyConnectedNet` (first clause, `num_classes =
d L`) and `TwoLayerNet` (second clause); the embedded object state contains no
cache field, mirroring that `cache_list` is a local of `loss`. -/
theorem inference_returns_scores_only :
    (∀ (sm : SoftmaxLoss) (ps : Params) (L : ℕ) (reg : ℚ) (X : Mat) (N : ℕ) (d : ℕ → ℕ),
      1 ≤ L →
      (∀ i ∈ List.range' 1 L, HasShape (getW ps i) (d (i - 1)) (d i) ∧
        (getB ps i).length = d i) →
      (∀ i ∈ List.range (L + 1), 1 ≤ d i) →
      HasShape X N (d 0) →
      fcResult sm ps L reg X none = FCOut.scores (fcScores ps L X).1 ∧
      HasShape (fcScores ps L X).1 N (d L)) ∧
    (∀ (sm : SoftmaxLoss) (st : TwoLayerNet) (X : Mat) (N din dh c : ℕ),
      HasShape (getW st.params 1) din dh → (getB st.params 1).length = dh →
      HasShape (getW st.params 2) dh c → (getB st.params 2).length = c →
      HasShape X N din → 1 ≤ din → 1 ≤ dh →
      TwoLayerNet.loss sm st X none = (FCOut.scores (twoScores st X), st) ∧
      HasShape (twoScores st X) N c) := by
  constructor
  · intro sm ps L reg X N d hL hws hpos hX
    have hw0 : ∀ i, 0 + 1 ≤ i → i ≤ 0 + (L - 1) →
        HasShape (getW ps i) (d (i - 1)) (d i) ∧ (getB ps i).length = d i := by
      intro i h1 h2
      exact hws i (List.mem_range'_1.mpr ⟨by omega, by omega⟩)
    have hpos0 : ∀ i, 0 ≤ i → i ≤ 0 + (L - 1) → 1 ≤ d i := by
      intro i h1 h2
      exact hpos i (List.mem_range.mpr (by omega))
    obtain ⟨hhid, -, -⟩ := fwdHidden_spec ps N d (L - 1) 0 X hw0 hpos0 hX
    simp only [Nat.zero_add] at hhid
    have hWL : HasShape (getW ps L) (d (L - 1)) (d L) := by
      have := (hws L (List.mem_range'_1.mpr ⟨by omega, by omega⟩)).1
      exact this
    have hBL : (getB ps L).length = d L :=
      (hws L (List.mem_range'_1.mpr ⟨by omega, by omega⟩)).2
    have hdL1 : 1 ≤ d (L - 1) := hpos (L - 1) (List.mem_range.mpr (by omega))
    refine ⟨rfl, ?_⟩
    exact hasShape_affine_forward hhid hWL hBL hdL1
  · intro sm st X N din dh c hW1 hB1 hW2 hB2 hX hdin hdh
    refine ⟨rfl, ?_⟩
    exact hasShape_affine_forward
      (hasShape_affine_relu_forward hX hW1 hB1 hdin) hW2 hB2 hdh

/-- C6 witness: the theorem applied to a concrete one-hidden-layer network
(all dimensions `1`) and a concrete two-layer network. -/
theorem inference_returns_scores_only_witness :
    ((1 : ℕ) ≤ 2 ∧
      (∀ i ∈ List.range' 1 2, HasShape (getW pw i) 1 1 ∧ (getB pw i).length = 1) ∧
      (∀ i ∈ List.range 3, (1 : ℕ) ≤ 1) ∧
      HasShape [[1]] 1 1 ∧
      (fcResult smId pw 2 1 [[1]] none = FCOut.scores (fcScores pw 2 [[1]]).1 ∧
        HasShape (fcScores pw 2 [[1]]).1 1 1)) ∧
    (HasShape (getW twoNetC.params 1) 1 1 ∧
      TwoLayerNet.loss smId twoNetC [[1]] none
          = (FCOut.scores (twoScores twoNetC [[1]]), twoNetC) ∧
      HasShape (twoScores twoNetC [[1]]) 1 1) :=
  ⟨⟨by decide, by decide, by decide, by decide,
    inference_returns_scores_only.1 smId pw 2 1 [[1]] 1 (fun _ => 1)
      (by decide) (by decide) (by decide) (by decide)⟩,
   ⟨by decide,
    inference_returns_scores_only.2 smId twoNetC [[1]] 1 1 1 1
      (by decide) (by decide) (by decide) (by decide) (by decide) (by decide) (by decide)⟩⟩

/-- C4: in training mode the gradient dictionary contains exactly one weight
key and one bias key per layer (clause 1: the key list, in the insertion order
of the reversed backward loop), every weight entry equals the backward-pass
weight gradient plus `reg * W_i` and every bias entry equals the backward-pass
bias gradient unmodified (clause 2, against the reference backward chain
`fcTriples`, which covers every layer by clause 3), and every gradient entry
has the shape of the corresponding parameter (clause 4).  The final clause
states the same facts for `TwoLayerNet.loss`. -/
theorem training_grads_structure :
    (∀ (sm : SoftmaxLoss) (ps : Params) (L : ℕ) (reg : ℚ) (X : Mat) (y : List ℕ)
        (N : ℕ) (d : ℕ → ℕ),
      1 ≤ L → 1 ≤ N →
      (∀ i ∈ List.range' 1 L, HasShape (getW ps i) (d (i - 1)) (d i) ∧
        (getB ps i).length = d i) →
      (∀ i ∈ List.range (L + 1), 1 ≤ d i) →
      HasShape X N (d 0) →
      HasShape (sm (fcScores ps L X).1 y).2 N (d L) →
      ((fcResult sm ps L reg X (some y)).gradsD.map Prod.fst
          = gradKeys (List.range' 1 L).reverse) ∧
      (∀ i dW db, (i, (dW, db)) ∈ fcTriples sm ps L X y →
          dlookup (fcResult sm ps L reg X (some y)).gradsD (PKey.W i)
            = some (NDArray.mat (matAdd dW (smulM reg (getW ps i)))) ∧
          dlookup (fcResult sm ps L reg X (some y)).gradsD (PKey.b i)
            = some (NDArray.vec db)) ∧
      ((fcTriples sm ps L X y).map Prod.fst = L :: (List.range' 1 (L - 1)).reverse) ∧
      (∀ i ∈ List.range' 1 L, ∃ gm gv,
          dlookup (fcResult sm ps L reg X (some y)).gradsD (PKey.W i)
            = some (NDArray.mat gm) ∧ HasShape gm (d (i - 1)) (d i) ∧
          dlookup (fcResult sm ps L reg X (some y)).gradsD (PKey.b i)
            = some (NDArray.vec gv) ∧ gv.length = d i)) ∧
    (∀ (sm : SoftmaxLoss) (st : TwoLayerNet) (X : Mat) (y : List ℕ) (N din dh c : ℕ),
      HasShape (getW st.params 1) din dh → (getB st.params 1).length = dh →
      HasShape (getW st.params 2) dh c → (getB st.params 2).length = c →
      HasShape X N din → 1 ≤ N → 1 ≤ din → 1 ≤ dh → 1 ≤ c →
      HasShape (sm (twoScores st X) y).2 N c →
      ((TwoLayerNet.loss sm st X (some y)).1.gradsD.map Prod.fst
          = [PKey.W 2, PKey.b 2, PKey.W 1, PKey.b 1]) ∧
      (dlookup (TwoLayerNet.loss sm st X (some y)).1.gradsD (PKey.W 2)
          = some (NDArray.mat (matAdd (twoBk2 sm st X y).2.1
              (smulM st.reg (getW st.params 2)))) ∧
        dlookup (TwoLayerNet.loss sm st X (some y)).1.gradsD (PKey.b 2)
          = some (NDArray.vec (twoBk2 sm st X y).2.2) ∧
        dlookup (TwoLayerNet.loss sm st X (some y)).1.gradsD (PKey.W 1)
          = some (NDArray.mat (matAdd (twoBk1 sm st X y).2.1
              (smulM st.reg (getW st.params 1)))) ∧
        dlookup (TwoLayerNet.loss sm st X (some y)).1.gradsD (PKey.b 1)
          = some (NDArray.vec (twoBk1 sm st X y).2.2)) ∧
      (HasShape (matAdd (twoBk2 sm st X y).2.1 (smulM st.reg (getW st.params 2))) dh c ∧
        (twoBk2 sm st X y).2.2.length = c ∧
        HasShape (matAdd (twoBk1 sm st X y).2.1 (smulM st.reg (getW st.params 1))) din dh ∧
        (twoBk1 sm st X y).2.2.length = dh)) := by
  constructor
  · intro sm ps L reg X y N d hL hN hws hpos hX hds
    have hmemL : L ∈ List.range' 1 L := List.mem_range'_1.mpr ⟨by omega, by omega⟩
    have hWL : HasShape (getW ps L) (d (L - 1)) (d L) := (hws L hmemL).1
    have hdL : 1 ≤ d L := hpos L (List.mem_range.mpr (by omega))
    have hdL1 : 1 ≤ d (L - 1) := hpos (L - 1) (List.mem_range.mpr (by omega))
    have hw0 : ∀ i, 0 + 1 ≤ i → i ≤ 0 + (L - 1) →
        HasShape (getW ps i) (d (i - 1)) (d i) ∧ (getB ps i).length = d i := by
      intro i h1 h2
      exact hws i (List.mem_range'_1.mpr ⟨by omega, by omega⟩)
    have hpos0 : ∀ i, 0 ≤ i → i ≤ 0 + (L - 1) → 1 ≤ d i := by
      intro i h1 h2
      exact hpos i (List.mem_range.mpr (by omega))
    obtain ⟨hhid, hkeys, -⟩ := fwdHidden_spec ps N d (L - 1) 0 X hw0 hpos0 hX
    simp only [Nat.zero_add] at hhid hkeys
    have hbks := affine_backward_shapes (c := (fcScores ps L X).2.2) hds hhid hWL hN hdL1 hdL
    have hbk1 : HasShape (fcBkL sm ps L X y).1 N (d (L - 1)) := hbks.1
    have hbkW : HasShape (fcBkL sm ps L X y).2.1 (d (L - 1)) (d L) := hbks.2.1
    have hbkb : (fcBkL sm ps L X y).2.2.length = d L := hbks.2.2
    obtain ⟨htrip, -⟩ := bwd_shape_spec ps N d hN (L - 1) 0 X (fcBkL sm ps L X y).1
      hw0 hpos0 hX (by simpa [Nat.zero_add] using hbk1)
    simp only [Nat.zero_add] at htrip
    have hkeysrev : (fcScores ps L X).2.1.reverse.map Prod.fst
        = (List.range' 1 (L - 1)).reverse := by
      rw [List.map_reverse]
      exact congrArg List.reverse hkeys
    have hnodup : ((fcScores ps L X).2.1.reverse.map Prod.fst).Nodup := by
      rw [hkeysrev]
      exact List.nodup_reverse.mpr (List.nodup_range' 1 (L - 1))
    have hmem_lt : ∀ j ∈ (fcScores ps L X).2.1.reverse.map Prod.fst, j ≠ L := by
      intro j hj
      rw [hkeysrev] at hj
      have := List.mem_range'_1.mp (List.mem_reverse.mp hj)
      omega
    have hdisj : ∀ i ∈ (fcScores ps L X).2.1.reverse.map Prod.fst,
        dlookup (fcG0 sm ps L reg X y) (PKey.W i) = none ∧
        dlookup (fcG0 sm ps L reg X y) (PKey.b i) = none := by
      intro i hi
      have hiL : i ≠ L := hmem_lt i hi
      constructor
      · rw [fcG0, dlookup_dinsert_ne _ _ _ _ (by simp),
          dlookup_dinsert_ne _ _ _ _ (by simp [hiL])]
        rfl
      · rw [fcG0, dlookup_dinsert_ne _ _ _ _ (by simp [hiL]),
          dlookup_dinsert_ne _ _ _ _ (by simp)]
        rfl
    have hg0W : dlookup (fcG0 sm ps L reg X y) (PKey.W L)
        = some (NDArray.mat (matAdd (fcBkL sm ps L X y).2.1 (smulM reg (getW ps L)))) := by
      rw [fcG0, dlookup_dinsert_ne _ _ _ _ (by simp), dlookup_dinsert_self]
    have hg0b : dlookup (fcG0 sm ps L reg X y) (PKey.b L)
        = some (NDArray.vec (fcBkL sm ps L X y).2.2) := by
      rw [fcG0, dlookup_dinsert_self]
    have hg0keys : (fcG0 sm ps L reg X y).map Prod.fst = [PKey.W L, PKey.b L] := rfl
    obtain ⟨ka, kb, kc⟩ := bwdHidden_spec ps reg ((fcScores ps L X).2.1.reverse)
      (fcBkL sm ps L X y).1 (fcG0 sm ps L reg X y) hnodup hdisj
    have hgr : (fcResult sm ps L reg X (some y)).gradsD
        = bwdHidden ps reg (fcScores ps L X).2.1.reverse (fcBkL sm ps L X y).1
            (fcG0 sm ps L reg X y) := rfl
    have hft : fcTriples sm ps L X y
        = (L, ((fcBkL sm ps L X y).2.1, (fcBkL sm ps L X y).2.2))
            :: bwdTriples (fcScores ps L X).2.1.reverse (fcBkL sm ps L X y).1 := rfl
    have hrangerev : (List.range' 1 L).reverse = L :: (List.range' 1 (L - 1)).reverse := by
      conv_lhs => rw [show L = (L - 1) + 1 from by omega, List.range'_1_concat]
      rw [List.reverse_append]
      simp [show 1 + (L - 1) = L from by omega]
    have havoidW : ∀ j ∈ (fcScores ps L X).2.1.reverse.map Prod.fst,
        PKey.W L ≠ PKey.W j ∧ PKey.W L ≠ PKey.b j := by
      intro j hj
      have := hmem_lt j hj
      simp [Ne.symm this]
    have havoidb : ∀ j ∈ (fcScores ps L X).2.1.reverse.map Prod.fst,
        PKey.b L ≠ PKey.W j ∧ PKey.b L ≠ PKey.b j := by
      intro j hj
      have := hmem_lt j hj
      simp [Ne.symm this]
    refine ⟨?_, ?_, ?_, ?_⟩
    · rw [hgr, ka, hg0keys, hkeysrev, hrangerev]
      rfl
    · intro i dW db hmem
      rw [hft] at hmem
      rcases List.mem_cons.mp hmem with hhead | htail
      · have hiL : i = L := by
          have := congrArg Prod.fst hhead
          simpa using this
        have hdw : dW = (fcBkL sm ps L X y).2.1 := by
          have := congrArg (fun q => q.2.1) hhead
          simpa using this
        have hdb : db = (fcBkL sm ps L X y).2.2 := by
          have := congrArg (fun q => q.2.2) hhead
          simpa using this
        subst hiL
        constructor
        · rw [hgr, kb _ havoidW, hg0W, hdw]
        · rw [hgr, kb _ havoidb, hg0b, hdb]
      · have := kc i dW db htail
        rw [hgr]
        exact this
    · rw [hft, List.map_cons, bwdTriples_map_fst, hkeysrev]
    · intro i hi
      have hibd := List.mem_range'_1.mp hi
      by_cases hiL : i = L
      · subst hiL
        refine ⟨matAdd (fcBkL sm ps i X y).2.1 (smulM reg (getW ps i)),
          (fcBkL sm ps i X y).2.2, ?_, ?_, ?_, ?_⟩
        · rw [hgr, kb _ havoidW, hg0W]
        · exact hasShape_matAdd hbkW (hasShape_smulM hWL)
        · rw [hgr, kb _ havoidb, hg0b]
        · exact hbkb
      · have hirev : i ∈ (fcScores ps L X).2.1.reverse.map Prod.fst := by
          rw [hkeysrev]
          exact List.mem_reverse.mpr (List.mem_range'_1.mpr ⟨by omega, by omega⟩)
        have himap : i ∈ (bwdTriples (fcScores ps L X).2.1.reverse
            (fcBkL sm ps L X y).1).map Prod.fst := by
          rw [bwdTriples_map_fst]
          exact hirev
        obtain ⟨q, hqmem, hq1⟩ := List.mem_map.mp himap
        obtain ⟨i', dW, db⟩ := q
        have hii : i' = i := hq1
        subst hii
        obtain ⟨-, -, hdWs, hdbs⟩ := htrip (i', dW, db) hqmem
        have hlooks := kc i' dW db hqmem
        refine ⟨matAdd dW (smulM reg (getW ps i')), db, ?_, ?_, ?_, ?_⟩
        · rw [hgr]
          exact hlooks.1
        · exact hasShape_matAdd hdWs (hasShape_smulM (hws i' hi).1)
        · rw [hgr]
          exact hlooks.2
        · exact hdbs
  · intro sm st X y N din dh c hW1 hB1 hW2 hB2 hX hN hdin hdh hc hds
    have hhid : HasShape (affine_relu_forward X (getW st.params 1) (getB st.params 1)).1
        N dh := hasShape_affine_relu_forward hX hW1 hB1 hdin
    have hpre : HasShape (affine_relu_forward X (getW st.params 1) (getB st.params 1)).2.pre
        N dh := by
      rw [affine_relu_forward_snd]
      exact hasShape_addBias (hasShape_matMul hX hW1 hdin) hB1
    have hbk2 := affine_backward_shapes
      (c := (affine_forward (affine_relu_forward X (getW st.params 1) (getB st.params 1)).1
        (getW st.params 2) (getB st.params 2)).2) hds hhid hW2 hN hdh hc
    have hbk1 := affine_relu_backward_shapes
      (c := (affine_relu_forward X (getW st.params 1) (getB st.params 1)).2)
      hbk2.1 (by
        rw [affine_relu_forward_snd]
        simpa using hX) (by
        rw [affine_relu_forward_snd]
        simpa using hW1) hpre hN hdin hdh
    have hg : (TwoLayerNet.loss sm st X (some y)).1.gradsD
        = [(PKey.W 2, NDArray.mat (matAdd (twoBk2 sm st X y).2.1
              (smulM st.reg (getW st.params 2)))),
           (PKey.b 2, NDArray.vec (twoBk2 sm st X y).2.2),
           (PKey.W 1, NDArray.mat (matAdd (twoBk1 sm st X y).2.1
              (smulM st.reg (getW st.params 1)))),
           (PKey.b 1, NDArray.vec (twoBk1 sm st X y).2.2)] := rfl
    refine ⟨by rw [hg]; rfl, ?_, ?_⟩
    · rw [hg]
      refine ⟨?_, ?_, ?_, ?_⟩ <;> rfl
    · exact ⟨hasShape_matAdd hbk2.2.1 (hasShape_smulM hW2), hbk2.2.2,
        hasShape_matAdd hbk1.2.1 (hasShape_smulM hW1), hbk1.2.2⟩

/-- C4 witness: the theorem applied to a concrete one-hidden-layer network and
a concrete two-layer network (all dimensions `1`, `reg = 1`). -/
theorem training_grads_structure_witness :
    ((1 : ℕ) ≤ 2 ∧ (1 : ℕ) ≤ 1 ∧
      (∀ i ∈ List.range' 1 2, HasShape (getW pw i) 1 1 ∧ (getB pw i).length = 1) ∧
      (∀ i ∈ List.range 3, (1 : ℕ) ≤ 1) ∧
      HasShape [[1]] 1 1 ∧
      HasShape (smId (fcScores pw 2 [[1]]).1 [0]).2 1 1 ∧
      (((fcResult smId pw 2 1 [[1]] (some [0])).gradsD.map Prod.fst
          = gradKeys (List.range' 1 2).reverse) ∧
        (∀ i dW db, (i, (dW, db)) ∈ fcTriples smId pw 2 [[1]] [0] →
          dlookup (fcResult smId pw 2 1 [[1]] (some [0])).gradsD (PKey.W i)
            = some (NDArray.mat (matAdd dW (smulM 1 (getW pw i)))) ∧
          dlookup (fcResult smId pw 2 1 [[1]] (some [0])).gradsD (PKey.b i)
            = some (NDArray.vec db)) ∧
        ((fcTriples smId pw 2 [[1]] [0]).map Prod.fst
          = 2 :: (List.range' 1 (2 - 1)).reverse) ∧
        (∀ i ∈ List.range' 1 2, ∃ gm gv,
          dlookup (fcResult smId pw 2 1 [[1]] (some [0])).gradsD (PKey.W i)
            = some (NDArray.mat gm) ∧ HasShape gm 1 1 ∧
          dlookup (fcResult smId pw 2 1 [[1]] (some [0])).gradsD (PKey.b i)
            = some (NDArray.vec gv) ∧ gv.length = 1))) ∧
    (HasShape (getW twoNetC.params 1) 1 1 ∧
      HasShape (smId (twoScores twoNetC [[1]]) [0]).2 1 1 ∧
      (((TwoLayerNet.loss smId twoNetC [[1]] (some [0])).1.gradsD.map Prod.fst
          = [PKey.W 2, PKey.b 2, PKey.W 1, PKey.b 1]) ∧
        (dlookup (TwoLayerNet.loss smId twoNetC [[1]] (some [0])).1.gradsD (PKey.W 2)
            = some (NDArray.mat (matAdd (twoBk2 smId twoNetC [[1]] [0]).2.1
                (smulM twoNetC.reg (getW twoNetC.params 2)))) ∧
          dlookup (TwoLayerNet.loss smId twoNetC [[1]] (some [0])).1.gradsD (PKey.b 2)
            = some (NDArray.vec (twoBk2 smId twoNetC [[1]] [0]).2.2) ∧
          dlookup (TwoLayerNet.loss smId twoNetC [[1]] (some [0])).1.gradsD (PKey.W 1)
            = some (NDArray.mat (matAdd (twoBk1 smId twoNetC [[1]] [0]).2.1
                (smulM twoNetC.reg (getW twoNetC.params 1)))) ∧
          dlookup (TwoLayerNet.loss smId twoNetC [[1]] (some [0])).1.gradsD (PKey.b 1)
            = some (NDArray.vec (twoBk1 smId twoNetC [[1]] [0]).2.2)) ∧
        (HasShape (matAdd (twoBk2 smId twoNetC [[1]] [0]).2.1
            (smulM twoNetC.reg (getW twoNetC.params 2))) 1 1 ∧
          (twoBk2 smId twoNetC [[1]] [0]).2.2.length = 1 ∧
          HasShape (matAdd (twoBk1 smId twoNetC [[1]] [0]).2.1
            (smulM twoNetC.reg (getW twoNetC.params 1))) 1 1 ∧
          (twoBk1 smId twoNetC [[1]] [0]).2.2.length = 1))) :=
  ⟨⟨by decide, by decide, by decide, by decide, by decide, by decide,
    training_grads_structure.1 smId pw 2 1 [[1]] [0] 1 (fun _ => 1)
      (by decide) (by decide) (by decide) (by decide) (by decide) (by decide)⟩,
   ⟨by decide, by decide,
    training_grads_structure.2 smId twoNetC [[1]] [0] 1 1 1 1
      (by decide) (by decide) (by decide) (by decide) (by decide)
      (by decide) (by decide) (by decide) (by decide) (by decide)⟩⟩
